import Mathlib

/-!
# Verification of the llm-rs numeric kernels

Shallow embedding of the three kernel files of the repository:

* `src/op/attention.rs` — causal self-attention forward / backward,
* `src/nn/embedding.rs` — token + position embedding forward / backward and
  the layer-level retained-state discipline,
* `src/op/loss.rs` — masked stable softmax and cross-entropy backward.

Tensors are modelled as total functions from (multi-)indices to a scalar
type `F`; the `f32` arithmetic of the source is modelled as exact arithmetic
in a linear ordered field, with the exponential passed as a parameter
`e : F → F` so that every definition stays computable.  Theorems instantiate
`F := ℝ` and `e := Real.exp`.  In-place accumulation loops (`+=`) are
modelled as folds over `List.range` in exactly the source's iteration order;
closed forms are then proved as lemmas.  A kernel that can panic is modelled
as an `Option`-returning function (`none` = abort).
-/

namespace LlmRs

variable {F : Type} [LinearOrderedField F]

/-! ## Generic accumulation loops -/

/-- One `+=` step: add `v` into slot `i` of row `f` (Rust `row[i] += v`). -/
def updRow (f : Nat → F) (i : Nat) (v : F) : Nat → F :=
  Function.update f i (f i + v)

/-- `for i in 0..n { row[i] += c i }` — a single accumulation sweep over a row. -/
def accumRange (c : Nat → F) (n : Nat) (f : Nat → F) : Nat → F :=
  (List.range n).foldl (fun g i => updRow g i (c i)) f

/-- `for i in 0..n { for j in 0..m { row[j] += c i j } }` — the doubly nested
accumulation sweep used by the attention softmax-Jacobian pass. -/
def accumRange2 (c : Nat → Nat → F) (n m : Nat) (f : Nat → F) : Nat → F :=
  (List.range n).foldl (fun g i => accumRange (c i) m g) f

/-- Running maximum of `f 0, …, f n`, as computed by the Rust loop that starts
from `NEG_INFINITY` and replaces the accumulator whenever the new value is
larger (the start value is absorbed by the first iteration). -/
def rowMax (f : Nat → F) : Nat → F
  | 0 => f 0
  | n + 1 => max (rowMax f n) (f (n + 1))

/-! ## Causal attention (`src/op/attention.rs`)

The packed input `x b t i` holds, for position `t` of batch `b`, the
query/key/value rows as the three consecutive thirds of a width-`3d` row;
head `h` owns the slice `[h*dh, h*dh+dh)` of each third, `dh = d / nh`. -/

/-- Query slice of head `h` at position `t`: `x[b][t][h*dh + i]`. -/
def attnQ (d nh : Nat) (x : Nat → Nat → Nat → F) (b t h i : Nat) : F :=
  x b t (h * (d / nh) + i)

/-- Key slice of head `h` at position `t`: `x[b][t][d + h*dh + i]`. -/
def attnK (d nh : Nat) (x : Nat → Nat → Nat → F) (b t h i : Nat) : F :=
  x b t (d + (h * (d / nh) + i))

/-- Value slice of head `h` at position `t`: `x[b][t][2*d + h*dh + i]`. -/
def attnV (d nh : Nat) (x : Nat → Nat → Nat → F) (b t h i : Nat) : F :=
  x b t (2 * d + (h * (d / nh) + i))

/-- Pass 1 of `forward`: the pre-softmax score written to `preatt[b][h][t][t_]`,
`(query_t · key_t_) * scale` (the source multiplies the summed dot product by
`scale` on the right). -/
def attnScore (d nh : Nat) (scale : F) (x : Nat → Nat → Nat → F)
    (b h t t_ : Nat) : F :=
  (∑ i ∈ Finset.range (d / nh), attnQ d nh x b t h i * attnK d nh x b t_ h i) * scale

/-- The running maximum over the scores of the causal prefix `[0, t]`
(pass 1 of `forward` tracks it alongside the dot products). -/
def attnMax (d nh : Nat) (scale : F) (x : Nat → Nat → Nat → F)
    (b h t : Nat) : F :=
  rowMax (attnScore d nh scale x b h t) t

/-- Pass 2 of `forward`: `expsum`, the sum of `exp (score - max)` over the
causal prefix. -/
def attnExpSum (e : F → F) (d nh : Nat) (scale : F) (x : Nat → Nat → Nat → F)
    (b h t : Nat) : F :=
  ∑ t_ ∈ Finset.range (t + 1),
    e (attnScore d nh scale x b h t t_ - attnMax d nh scale x b h t)

/-- Passes 2–3 of `forward`: the normalized attention weight
`exp (score - max) * (1 / expsum)` written to `att[b][h][t][t_]` for `t_ ≤ t`. -/
def attnW (e : F → F) (d nh : Nat) (scale : F) (x : Nat → Nat → Nat → F)
    (b h t t_ : Nat) : F :=
  e (attnScore d nh scale x b h t t_ - attnMax d nh scale x b h t) *
    (1 / attnExpSum e d nh scale x b h t)

/-- The `preatt` tensor after `forward` returns.  `forward` writes the scores
only for `t_ ≤ t` (`let (preatt, _) = preatt.split_at_mut(t + 1)` discards the
tail without touching it), so every other entry keeps its prior contents
`preatt0`. -/
def attnFwdPreatt (batch nSeq nh d : Nat) (scale : F)
    (x : Nat → Nat → Nat → F) (preatt0 : Nat → Nat → Nat → Nat → F) :
    Nat → Nat → Nat → Nat → F :=
  fun b h t t_ =>
    if b < batch ∧ h < nh ∧ t < nSeq ∧ t_ ≤ t then attnScore d nh scale x b h t t_
    else preatt0 b h t t_

/-- The `att` tensor after `forward` returns: softmax weights on the causal
prefix `t_ ≤ t`, an explicit `tail.fill(0.)` on `t < t_ < nSeq`, untouched
outside the iterated ranges. -/
def attnFwdAtt (batch nSeq nh d : Nat) (e : F → F) (scale : F)
    (x : Nat → Nat → Nat → F) (att0 : Nat → Nat → Nat → Nat → F) :
    Nat → Nat → Nat → Nat → F :=
  fun b h t t_ =>
    if b < batch ∧ h < nh ∧ t < nSeq then
      if t_ ≤ t then attnW e d nh scale x b h t t_
      else if t_ < nSeq then 0
      else att0 b h t t_
    else att0 b h t t_

/-- Pass 4 of `forward`: the output row.  Each head slice is zeroed
(`y.fill(0.)`) and then accumulates `att[t_] * value_t_`; elements outside
every head slice (`j ≥ nh * dh`, possible when `nh ∤ d`) are never written. -/
def attnFwdY (batch nSeq nh d : Nat) (e : F → F) (scale : F)
    (x : Nat → Nat → Nat → F) (y0 : Nat → Nat → Nat → F) :
    Nat → Nat → Nat → F :=
  fun b t j =>
    if b < batch ∧ t < nSeq ∧ j < nh * (d / nh) then
      ∑ t_ ∈ Finset.range (t + 1),
        attnW e d nh scale x b (j / (d / nh)) t t_ *
          attnV d nh x b t_ (j / (d / nh)) (j % (d / nh))
    else y0 b t j

/-- First pass of `backward` restricted to the `datt` tensor: for `t_ ≤ t`,
`datt[b][h][t][t_] += Σ_i value_{t_}[i] * dy[b][t][h*dh+i]`.  Rows with
`(b, h, t)` outside the loop ranges are untouched. -/
def attnBwdDatt (batch nSeq nh d : Nat) (x : Nat → Nat → Nat → F)
    (dy : Nat → Nat → Nat → F) (datt0 : Nat → Nat → Nat → Nat → F) :
    Nat → Nat → Nat → Nat → F :=
  fun b h t =>
    if b < batch ∧ h < nh ∧ t < nSeq then
      accumRange
        (fun t_ => ∑ i ∈ Finset.range (d / nh),
          attnV d nh x b t_ h i * dy b t (h * (d / nh) + i))
        (t + 1) (datt0 b h t)
    else datt0 b h t

/-- Softmax-Jacobian pass of `backward` (the second nested loop): for all
`t_, t__ ≤ t`,
`dpreatt[t__] += att[t_] * (𝟙[t_ = t__] - att[t__]) * datt[t_]`,
where `datt` is the row produced by the first pass (`attnBwdDatt`). -/
def attnBwdDpreatt (batch nSeq nh d : Nat) (x : Nat → Nat → Nat → F)
    (dy : Nat → Nat → Nat → F) (att datt0 dpreatt0 : Nat → Nat → Nat → Nat → F) :
    Nat → Nat → Nat → Nat → F :=
  fun b h t =>
    if b < batch ∧ h < nh ∧ t < nSeq then
      accumRange2
        (fun t_ t__ =>
          att b h t t_ * ((if t_ = t__ then (1 : F) else 0) - att b h t t__) *
            attnBwdDatt batch nSeq nh d x dy datt0 b h t t_)
        (t + 1) (t + 1) (dpreatt0 b h t)
    else dpreatt0 b h t

/-! ## Embedding (`src/nn/embedding.rs`)

The kernels work on flattened `(batch*nSeq) × d` views; the layer flattens
`tokens : batch × nSeq` with `merge(0, 2)` and builds the position-index
buffer with `BatchIter`. -/

/-- `BatchIter` emits `index % seq_len` while `index / seq_len < batch_size`,
incrementing `index` by one each call; starting from 0, the `i`-th emitted
element (if any) is therefore the value at `index = i`. -/
def batchIterAt (batchSize seqLen i : Nat) : Option Nat :=
  if i / seqLen < batchSize then some (i % seqLen) else none

/-- `forward::embedding` (`Scheme::compute`): output row `i`, column `j` is
`table1[i1 i][j] + table2[i2 i][j]` — a plain write, every `j < d` column of
every `i < n` row is produced by this formula. -/
def embFwdKernel (i1 i2 : Nat → Nat) (table1 table2 : Nat → Nat → F)
    (i j : Nat) : F :=
  table1 (i1 i) j + table2 (i2 i) j

/-- The layer-level embedding forward: `tokens` flattened by `merge(0, 2)`
feeds `i1`, and the internally built position buffer (`BatchIter`, i.e.
`i % seqLen` at flat index `i`) feeds `i2`. -/
def embForward (te pe : Nat → Nat → F) (tokens : Nat → Nat → Nat)
    (seqLen : Nat) (b s j : Nat) : F :=
  embFwdKernel (fun i => tokens (i / seqLen) (i % seqLen)) (fun i => i % seqLen)
    te pe (b * seqLen + s) j

/-- `backward::embedding` (`Scheme::compute`), one table: for each flat row
`i < n` the upstream row `dy i` is scatter-added (`+=`, columns `j < d`) into
the accumulator at row `idx i`. -/
def scatterAdd (idx : Nat → Nat) (dy : Nat → Nat → F) (n d : Nat)
    (g0 : Nat → Nat → F) : Nat → Nat → F :=
  (List.range n).foldl
    (fun g i => fun r j => if r = idx i ∧ j < d then g r j + dy i j else g r j)
    g0

/-- The layer-level embedding backward: the same flat `dy` row is scatter-added
into the token-table accumulator at `tokens[i / seqLen][i % seqLen]` and into
the position-table accumulator at the recomputed position id `i % seqLen`. -/
def embBackward (dy : Nat → Nat → F) (tokens : Nat → Nat → Nat)
    (batch seqLen d : Nat) (dte0 dpe0 : Nat → Nat → F) :
    (Nat → Nat → F) × (Nat → Nat → F) :=
  (scatterAdd (fun i => tokens (i / seqLen) (i % seqLen)) dy (batch * seqLen) d dte0,
   scatterAdd (fun i => i % seqLen) dy (batch * seqLen) d dpe0)

/-- The `Embedding` layer state: the two table handles and the optional
retained token-index tensor (a `batch × seqLen` index function plus its
shape), `None` until a forward stores it. -/
structure EmbState (F : Type) where
  te : Nat → Nat → F
  pe : Nat → Nat → F
  tokens : Option ((Nat → Nat → Nat) × Nat × Nat)

/-- `Embedding::init`: `tokens: None`. -/
def embInit (te pe : Nat → Nat → F) : EmbState F :=
  ⟨te, pe, none⟩

/-- `Embedding::forward`: `self.tokens.replace(tokens)` stores the index
tensor, then the kernel computes the output. -/
def embLayerForward (st : EmbState F) (tk : (Nat → Nat → Nat) × Nat × Nat) :
    (Nat → Nat → Nat → F) × EmbState F :=
  (fun b s j => embForward st.te st.pe tk.1 tk.2.2 b s j,
   { st with tokens := some tk })

/-- `Embedding::backward`: `self.tokens.take().unwrap()` — aborts (`none`)
when no retained index tensor is present, otherwise consumes it (leaving
`None`) and runs the scatter-add kernel on both gradient accumulators. -/
def embLayerBackward (st : EmbState F) (dy : Nat → Nat → F) (d : Nat)
    (dte0 dpe0 : Nat → Nat → F) :
    Option (((Nat → Nat → F) × (Nat → Nat → F)) × EmbState F) :=
  match st.tokens with
  | none => none
  | some tk =>
      some (embBackward dy tk.1 tk.2.1 tk.2.2 d dte0 dpe0,
            { st with tokens := none })

/-- Flat element offset used by both embedding kernels to address table row
`i1 i`: `i1.as_usize() * d + j` (forward reads `table1` there, backward
read-modify-writes `dtable1` there); no bounds check is performed on it. -/
def embTokenOffset (i1 : Nat → Nat) (d i j : Nat) : Nat :=
  i1 i * d + j

/-- All table accesses of a kernel call stay inside the `nt × d` table
buffer. -/
def embTokenAccessInBounds (i1 : Nat → Nat) (n d nt : Nat) : Prop :=
  ∀ i < n, ∀ j < d, embTokenOffset i1 d i j < nt * d

/-- The shape preconditions the embedding kernels do assert before touching
memory: the three row counts agree and the three widths agree
(`unique(&[n0, n1, n2])`, `unique(&[d0, d1, d2])`).  The table row counts are
destructured as `_nt1`/`_nt2` and never checked, and no index value is
inspected. -/
def embKernelChecks (n0 n1 n2 d0 d1 d2 : Nat) : Prop :=
  (n0 = n1 ∧ n1 = n2) ∧ (d0 = d1 ∧ d1 = d2)

/-! ## Softmax + cross-entropy loss (`src/op/loss.rs`) -/

/-- One row of masked stable softmax: `exp (x i - max) / expsum`, where the
max and the sum range over the first `mask` elements only (`rowMax x (mask-1)`
is the maximum of `x[..mask]` for `mask ≥ 1`). -/
def lossSoftmaxRow (e : F → F) (x : Nat → F) (mask i : Nat) : F :=
  e (x i - rowMax x (mask - 1)) /
    ∑ k ∈ Finset.range mask, e (x k - rowMax x (mask - 1))

/-- `loss::softmax`.  Per row, `y.split_at_mut(mask)` aborts when
`mask > n_voc`, and `x[..mask].iter().max_by(..).unwrap()` aborts when
`mask = 0`; both panics require the row loops to run at all
(`batch > 0 ∧ nSeq > 0`).  Otherwise the first `mask` columns receive the
stable softmax and the tail `mask ≤ i < nVoc` is `fill(0.)`-ed; the input is
only ever read at columns `< mask`. -/
def lossSoftmax (e : F → F) (x y0 : Nat → Nat → Nat → F)
    (batch nSeq nVoc mask : Nat) : Option (Nat → Nat → Nat → F) :=
  if batch = 0 ∨ nSeq = 0 then some y0
  else if mask = 0 ∨ nVoc < mask then none
  else some (fun b t i =>
    if b < batch ∧ t < nSeq ∧ i < nVoc then
      if i < mask then lossSoftmaxRow e (x b t) mask i else 0
    else y0 b t i)

/-- `loss::backward` (cross-entropy backward): per row, for every `i < nVoc`
(the full vocabulary axis of the tensors as given),
`dlogits[i] += (probs[i] - 𝟙[i = target]) * dloss`. -/
def lossBackward (dlogits0 probs : Nat → Nat → Nat → F)
    (dlosses : Nat → Nat → F) (targets : Nat → Nat → Nat)
    (batch nSeq nVoc : Nat) : Nat → Nat → Nat → F :=
  fun b t =>
    if b < batch ∧ t < nSeq then
      accumRange
        (fun i =>
          (probs b t i - (if i = targets b t then (1 : F) else 0)) * dlosses b t)
        nVoc (dlogits0 b t)
    else dlogits0 b t

/-! ## Concrete instances used by counterexamples and witnesses -/

/-- Token table of the concrete embedding scenario: rows `[1,1,1,1]` and
`[2,2,2,2]`. -/
def exTe : Nat → Nat → ℝ := fun r _ => if r = 0 then 1 else 2

/-- Position table of the concrete embedding scenario: rows `[0,0,0,0]` and
`[10,10,10,10]`. -/
def exPe : Nat → Nat → ℝ := fun r _ => if r = 0 then 0 else 10

/-- Token indices of the concrete embedding scenario: `[0, 1]` for the single
batch element. -/
def exTokens : Nat → Nat → Nat := fun _ s => s

/-- An all-zero packed attention input. -/
def exZeroX : Nat → Nat → Nat → ℝ := fun _ _ _ => 0

/-- A pre-softmax score tensor holding `1` everywhere before the call. -/
def exOnePreatt : Nat → Nat → Nat → Nat → ℝ := fun _ _ _ _ => 1

/-! ## Helper lemmas -/

theorem updRow_apply (f : Nat → F) (i : Nat) (v : F) (j : Nat) :
    updRow f i v j = if j = i then f i + v else f j := by
  simp [updRow, Function.update_apply]

theorem accumRange_apply (c : Nat → F) (n : Nat) (f : Nat → F) (j : Nat) :
    accumRange c n f j = f j + if j < n then c j else 0 := by
  induction n with
  | zero => simp [accumRange]
  | succ n ih =>
    have hstep : accumRange c (n + 1) f = updRow (accumRange c n f) n (c n) := by
      simp [accumRange, List.range_succ]
    rw [hstep, updRow_apply]
    by_cases hj : j = n
    · subst hj
      rw [if_pos rfl, ih]
      simp [Nat.lt_irrefl, Nat.lt_succ_self]
    · rw [if_neg hj, ih]
      by_cases hlt : j < n
      · rw [if_pos hlt, if_pos (by omega)]
      · rw [if_neg hlt, if_neg (by omega)]

theorem accumRange2_apply (c : Nat → Nat → F) (n m : Nat) (f : Nat → F) (j : Nat) :
    accumRange2 c n m f j =
      f j + if j < m then ∑ i ∈ Finset.range n, c i j else 0 := by
  induction n with
  | zero => simp [accumRange2]
  | succ n ih =>
    have hstep : accumRange2 c (n + 1) m f = accumRange (c n) m (accumRange2 c n m f) := by
      simp [accumRange2, List.range_succ]
    rw [hstep, accumRange_apply, ih, Finset.sum_range_succ]
    by_cases hj : j < m
    · simp only [if_pos hj]
      ring
    · simp [hj]

theorem scatterAdd_apply (idx : Nat → Nat) (dy : Nat → Nat → F) (n d : Nat)
    (g0 : Nat → Nat → F) (r j : Nat) :
    scatterAdd idx dy n d g0 r j =
      g0 r j +
        if j < d then
          ∑ i ∈ (Finset.range n).filter (fun i => idx i = r), dy i j
        else 0 := by
  induction n with
  | zero => simp [scatterAdd]
  | succ n ih =>
    have hstep : scatterAdd idx dy (n + 1) d g0 r j =
        if r = idx n ∧ j < d then scatterAdd idx dy n d g0 r j + dy n j
        else scatterAdd idx dy n d g0 r j := by
      simp [scatterAdd, List.range_succ]
    have hnotmem : n ∉ (Finset.range n).filter (fun i => idx i = r) := by
      simp
    by_cases hd : j < d
    · by_cases hr : r = idx n
      · have hfilter : (Finset.range (n + 1)).filter (fun i => idx i = r) =
            insert n ((Finset.range n).filter (fun i => idx i = r)) := by
          rw [Finset.range_succ, Finset.filter_insert, if_pos hr.symm]
        rw [hstep, if_pos ⟨hr, hd⟩, ih, hfilter, Finset.sum_insert hnotmem]
        simp only [if_pos hd]
        ring
      · have hfilter : (Finset.range (n + 1)).filter (fun i => idx i = r) =
            (Finset.range n).filter (fun i => idx i = r) := by
          rw [Finset.range_succ, Finset.filter_insert,
            if_neg (fun h => hr h.symm)]
        rw [hstep, if_neg (fun h => hr h.1), ih, hfilter]
    · rw [hstep, if_neg (fun h => hd h.2), ih, if_neg hd, if_neg hd]

theorem le_rowMax (f : Nat → F) (n j : Nat) (hj : j ≤ n) : f j ≤ rowMax f n := by
  induction n with
  | zero =>
    have : j = 0 := Nat.le_zero.mp hj
    subst this
    exact le_of_eq rfl
  | succ n ih =>
    by_cases h : j ≤ n
    · exact le_trans (ih h) (le_max_left _ _)
    · have : j = n + 1 := by omega
      subst this
      exact le_max_right _ _

theorem rowMax_attained (f : Nat → F) (n : Nat) :
    ∃ j, j ≤ n ∧ rowMax f n = f j := by
  induction n with
  | zero => exact ⟨0, le_refl 0, rfl⟩
  | succ n ih =>
    obtain ⟨j, hj, hval⟩ := ih
    by_cases h : rowMax f n ≤ f (n + 1)
    · exact ⟨n + 1, le_refl _, max_eq_right h⟩
    · exact ⟨j, Nat.le_succ_of_le hj, (max_eq_left (le_of_not_le h)).trans hval⟩

theorem exp_sum_range_pos (s : Nat → ℝ) (n : Nat) (hn : 0 < n) :
    0 < ∑ k ∈ Finset.range n, Real.exp (s k) :=
  Finset.sum_pos (fun i _ => Real.exp_pos (s i))
    (Finset.nonempty_range_iff.mpr (Nat.pos_iff_ne_zero.mp hn))

/-- Shift invariance of the stable softmax: subtracting any constant `M`
before exponentiating does not change the normalized result. -/
theorem exp_shift_softmax (s : Nat → ℝ) (M : ℝ) (n : Nat) (i : Nat) :
    Real.exp (s i - M) / ∑ k ∈ Finset.range n, Real.exp (s k - M) =
      Real.exp (s i) / ∑ k ∈ Finset.range n, Real.exp (s k) := by
  have hM : Real.exp M ≠ 0 := (Real.exp_pos M).ne'
  simp only [Real.exp_sub]
  rw [← Finset.sum_div, div_div_div_comm, div_self hM, div_one]

theorem rowMax_congr (f g : Nat → F) (n : Nat) (h : ∀ j ≤ n, f j = g j) :
    rowMax f n = rowMax g n := by
  induction n with
  | zero => exact h 0 (le_refl 0)
  | succ n ih =>
    have h1 : rowMax f n = rowMax g n := ih (fun j hj => h j (Nat.le_succ_of_le hj))
    simp only [rowMax, h1, h (n + 1) (le_refl _)]

/-! ## Claim theorems -/

/-- C4: embedding forward writes, for every `(b, s)`, the row
`token-table[tokens b s] + position-table[s]`, the position index being
generated internally by `BatchIter` (the `i`-th emitted id is `i % L`,
cycling `0..L-1` once per batch element); and on the concrete scenario
(batch 1, sequence 2, d 4, token rows `[1,1,1,1]`/`[2,2,2,2]`, position rows
`[0,0,0,0]`/`[10,10,10,10]`, tokens `[0,1]`) the output rows are
`[1,1,1,1]` and `[12,12,12,12]`. -/
theorem C4_embedding_forward :
    (∀ (te pe : Nat → Nat → ℝ) (tokens : Nat → Nat → Nat) (batch L b s j : Nat),
        b < batch → s < L →
        embForward te pe tokens L b s j = te (tokens b s) j + pe s j) ∧
    (∀ batch L i : Nat, i < batch * L → batchIterAt batch L i = some (i % L)) ∧
    (∀ j < 4, embForward exTe exPe exTokens 2 0 0 j = 1 ∧
        embForward exTe exPe exTokens 2 0 1 j = 12) := by
  refine ⟨?_, ?_, ?_⟩
  · intro te pe tokens batch L b s j _hb hs
    have hL : 0 < L := lt_of_le_of_lt (Nat.zero_le s) hs
    have hdiv : (b * L + s) / L = b := by
      rw [mul_comm, Nat.mul_add_div hL, Nat.div_eq_of_lt hs, Nat.add_zero]
    have hmod : (b * L + s) % L = s := by
      rw [add_comm, Nat.add_mul_mod_self_right, Nat.mod_eq_of_lt hs]
    simp [embForward, embFwdKernel, hdiv, hmod]
  · intro batch L i hi
    have hL : 0 < L := by
      rcases Nat.eq_zero_or_pos L with h | h
      · subst h; simp at hi
      · exact h
    simp [batchIterAt, (Nat.div_lt_iff_lt_mul hL).mpr hi]
  · intro j _hj
    constructor
    · norm_num [embForward, embFwdKernel, exTe, exPe, exTokens]
    · norm_num [embForward, embFwdKernel, exTe, exPe, exTokens]

theorem C4_embedding_forward_witness :
    (0 : Nat) < 1 ∧ (0 : Nat) < 2 ∧
      embForward exTe exPe exTokens 2 0 0 0 = exTe (exTokens 0 0) 0 + exPe 0 0 :=
  ⟨by decide, by decide,
    C4_embedding_forward.1 exTe exPe exTokens 1 2 0 0 0 (by decide) (by decide)⟩

/-- C5: embedding backward scatter-adds the full upstream gradient row into
both accumulators (token-table row `tokens[i/L][i%L]`, position-table row
`i % L`); collisions sum, so each accumulator row ends as its initial
contents plus the sum of all upstream rows whose index maps to it. -/
theorem C5_embedding_backward_scatter :
    ∀ (dy : Nat → Nat → ℝ) (tokens : Nat → Nat → Nat) (batch L d : Nat)
      (dte0 dpe0 : Nat → Nat → ℝ) (r j : Nat), j < d →
      ((embBackward dy tokens batch L d dte0 dpe0).1 r j =
          dte0 r j + ∑ i ∈ (Finset.range (batch * L)).filter
              (fun i => tokens (i / L) (i % L) = r), dy i j) ∧
      ((embBackward dy tokens batch L d dte0 dpe0).2 r j =
          dpe0 r j + ∑ i ∈ (Finset.range (batch * L)).filter
              (fun i => i % L = r), dy i j) := by
  intro dy tokens batch L d dte0 dpe0 r j hj
  constructor
  · rw [show (embBackward dy tokens batch L d dte0 dpe0).1 =
        scatterAdd (fun i => tokens (i / L) (i % L)) dy (batch * L) d dte0 from rfl,
      scatterAdd_apply, if_pos hj]
  · rw [show (embBackward dy tokens batch L d dte0 dpe0).2 =
        scatterAdd (fun i => i % L) dy (batch * L) d dpe0 from rfl,
      scatterAdd_apply, if_pos hj]

theorem C5_embedding_backward_scatter_witness :
    (0 : Nat) < 4 ∧
      ((embBackward (fun _ _ => (1 : ℝ)) exTokens 1 2 4 (fun _ _ => 0)
          (fun _ _ => 0)).1 0 0 =
        (0 : ℝ) + ∑ i ∈ (Finset.range (1 * 2)).filter
            (fun i => exTokens (i / 2) (i % 2) = 0), (1 : ℝ)) :=
  ⟨by decide,
    (C5_embedding_backward_scatter (fun _ _ => (1 : ℝ)) exTokens 1 2 4
        (fun _ _ => 0) (fun _ _ => 0) 0 0 (by decide)).1⟩

/-- C7: cross-entropy backward accumulates, for every row and every index `i`
of the full vocabulary axis,
`dlogit[i] += (probability[i] - 𝟙[i = target]) * upstream_loss_gradient`,
adding into whatever the gradient tensor already holds. -/
theorem C7_crossentropy_backward :
    ∀ (dlogits0 probs : Nat → Nat → Nat → ℝ) (dlosses : Nat → Nat → ℝ)
      (targets : Nat → Nat → Nat) (batch nSeq nVoc b t i : Nat),
      b < batch → t < nSeq → i < nVoc →
      lossBackward dlogits0 probs dlosses targets batch nSeq nVoc b t i =
        dlogits0 b t i +
          (probs b t i - (if i = targets b t then 1 else 0)) * dlosses b t := by
  intro dlogits0 probs dlosses targets batch nSeq nVoc b t i hb ht hi
  have hcond : b < batch ∧ t < nSeq := ⟨hb, ht⟩
  simp only [lossBackward, if_pos hcond]
  rw [accumRange_apply, if_pos hi]

theorem C7_crossentropy_backward_witness :
    (0 : Nat) < 1 ∧
      lossBackward (fun _ _ _ => (0 : ℝ)) (fun _ _ _ => 1) (fun _ _ => 1)
          (fun _ _ => 0) 1 1 1 0 0 0 =
        (0 : ℝ) + ((1 : ℝ) - (if (0 : Nat) = 0 then 1 else 0)) * 1 :=
  ⟨by decide,
    C7_crossentropy_backward (fun _ _ _ => (0 : ℝ)) (fun _ _ _ => 1)
      (fun _ _ => 1) (fun _ _ => 0) 1 1 1 0 0 0 (by decide) (by decide) (by decide)⟩

/-- C8: embedding layer backward aborts exactly when the retained token-index
tensor is absent: it fails on a fresh (`init`) state, succeeds right after a
forward (which stores the tensor), and a successful backward consumes the
tensor so that a second backward without an intervening forward fails. -/
theorem C8_embedding_retained_state :
    ∀ (st : EmbState ℝ) (dy : Nat → Nat → ℝ) (d : Nat) (dte0 dpe0 : Nat → Nat → ℝ),
      (embLayerBackward st dy d dte0 dpe0 = none ↔ st.tokens = none) ∧
      (∀ te pe : Nat → Nat → ℝ, embLayerBackward (embInit te pe) dy d dte0 dpe0 = none) ∧
      (∀ tk, (embLayerBackward (embLayerForward st tk).2 dy d dte0 dpe0).isSome = true) ∧
      (∀ g st2, embLayerBackward st dy d dte0 dpe0 = some (g, st2) →
        embLayerBackward st2 dy d dte0 dpe0 = none) := by
  intro st dy d dte0 dpe0
  refine ⟨?_, ?_, ?_, ?_⟩
  · cases h : st.tokens <;> simp [embLayerBackward, h]
  · intro te pe
    simp [embLayerBackward, embInit]
  · intro tk
    simp [embLayerBackward, embLayerForward]
  · intro g st2 hsome
    cases htok : st.tokens with
    | none => simp [embLayerBackward, htok] at hsome
    | some tk =>
      simp only [embLayerBackward, htok] at hsome
      obtain ⟨-, hst⟩ := Prod.mk.injEq .. ▸ Option.some_inj.mp hsome
      rw [← hst]
      simp [embLayerBackward]

theorem C8_embedding_retained_state_witness :
    embLayerBackward
        (embInit (fun _ _ => (0 : ℝ)) (fun _ _ => 0)) (fun _ _ => 0) 1
        (fun _ _ => 0) (fun _ _ => 0) = none :=
  (C8_embedding_retained_state
      (embInit (fun _ _ => (0 : ℝ)) (fun _ _ => 0)) (fun _ _ => 0) 1
      (fun _ _ => 0) (fun _ _ => 0)).2.1 (fun _ _ => 0) (fun _ _ => 0)

/-- C10: the embedding kernels address table rows by the raw flat offset
`token_index * d + j` with no bounds check: all accesses stay inside the
`nt × d` table iff every token index is `< nt` (for `d > 0`), and the shape
checks the kernels do perform (`unique` over row counts and widths) are
satisfiable together with an out-of-range token index. -/
theorem C10_embedding_unchecked_index :
    (∀ (i1 : Nat → Nat) (n d nt : Nat), 0 < d →
        (embTokenAccessInBounds i1 n d nt ↔ ∀ i < n, i1 i < nt)) ∧
    (embKernelChecks 1 1 1 1 1 1 ∧
      ¬ embTokenAccessInBounds (fun _ => 5) 1 1 1) := by
  constructor
  · intro i1 n d nt hd
    constructor
    · intro hin i hi
      have h1 : embTokenOffset i1 d i 0 < nt * d := hin i hi 0 hd
      have h2 : i1 i * d < nt * d := by
        simpa [embTokenOffset] using h1
      exact lt_of_mul_lt_mul_right h2 (Nat.zero_le d)
    · intro hidx i hi j hj
      have h1 : i1 i + 1 ≤ nt := Nat.succ_le_of_lt (hidx i hi)
      have h2 : (i1 i + 1) * d ≤ nt * d := Nat.mul_le_mul_right d h1
      have h3 : embTokenOffset i1 d i j < (i1 i + 1) * d := by
        simp only [embTokenOffset]
        calc i1 i * d + j < i1 i * d + d := by omega
          _ = (i1 i + 1) * d := by ring
      exact lt_of_lt_of_le h3 h2
  · constructor
    · exact ⟨⟨rfl, rfl⟩, rfl, rfl⟩
    · intro h
      have := h 0 (by decide) 0 (by decide)
      simp [embTokenOffset] at this

theorem C10_embedding_unchecked_index_witness :
    (0 : Nat) < 1 ∧
      (embTokenAccessInBounds (fun _ => 0) 1 1 1 ↔ ∀ i < 1, (fun _ => 0) i < 1) :=
  ⟨by decide, C10_embedding_unchecked_index.1 (fun _ => 0) 1 1 1 (by decide)⟩

/-- C2: attention backward accumulates the pre-softmax score gradient through
the exact softmax Jacobian over the causal prefix: for all `t_, t__ ≤ t`,
`dscore[t__] += att[t_] * (𝟙[t_ = t__] - att[t__]) * datt[t_]`, where `datt`
is the attention-weight gradient accumulated in the preceding pass from the
upstream output gradient and the values
(`datt[t_] += Σ_i value_{t_}[i] * dy[i]`). -/
theorem C2_attention_backward_jacobian :
    ∀ (x dy : Nat → Nat → Nat → ℝ) (att datt0 dpreatt0 : Nat → Nat → Nat → Nat → ℝ)
      (batch nSeq nh d b h t t__ : Nat),
      b < batch → h < nh → t < nSeq → t__ ≤ t →
      (attnBwdDpreatt batch nSeq nh d x dy att datt0 dpreatt0 b h t t__ =
          dpreatt0 b h t t__ +
            ∑ t_ ∈ Finset.range (t + 1),
              att b h t t_ * ((if t_ = t__ then 1 else 0) - att b h t t__) *
                attnBwdDatt batch nSeq nh d x dy datt0 b h t t_) ∧
      (∀ t_ ≤ t,
        attnBwdDatt batch nSeq nh d x dy datt0 b h t t_ =
          datt0 b h t t_ +
            ∑ i ∈ Finset.range (d / nh),
              attnV d nh x b t_ h i * dy b t (h * (d / nh) + i)) := by
  intro x dy att datt0 dpreatt0 batch nSeq nh d b h t t__ hb hh ht htj
  have hcond : b < batch ∧ h < nh ∧ t < nSeq := ⟨hb, hh, ht⟩
  constructor
  · simp only [attnBwdDpreatt, if_pos hcond]
    rw [accumRange2_apply, if_pos (Nat.lt_succ_of_le htj)]
  · intro t_ ht_
    simp only [attnBwdDatt, if_pos hcond]
    rw [accumRange_apply, if_pos (Nat.lt_succ_of_le ht_)]

theorem C2_attention_backward_jacobian_witness :
    (0 : Nat) < 1 ∧ (0 : Nat) < 1 ∧ (0 : Nat) < 1 ∧ (0 : Nat) ≤ 0 ∧
      (attnBwdDpreatt 1 1 1 1 exZeroX exZeroX exOnePreatt exOnePreatt exOnePreatt
          0 0 0 0 =
        exOnePreatt 0 0 0 0 +
          ∑ t_ ∈ Finset.range 1,
            exOnePreatt 0 0 0 t_ *
                ((if t_ = 0 then 1 else 0) - exOnePreatt 0 0 0 0) *
              attnBwdDatt 1 1 1 1 exZeroX exZeroX exOnePreatt 0 0 0 t_) :=
  ⟨by decide, by decide, by decide, by decide,
    (C2_attention_backward_jacobian exZeroX exZeroX exOnePreatt exOnePreatt
        exOnePreatt 1 1 1 1 0 0 0 0 (by decide) (by decide) (by decide)
        (by decide)).1⟩

/-- C1: attention forward, with `scale = dh ^ (-0.5)`, writes
`score[t_] = scale * (query_t · key_t_)` exactly for the causal prefix
`t_ ≤ t` (later positions of the score tensor are not computed), the
attention weight row is the softmax of that score row over `[0, t]`, and the
output head slice is `Σ_{t_ ≤ t} weight[t_] * value_{t_}`; query, key and
value are the three consecutive thirds of the packed width-`3d` input row. -/
theorem C1_attention_forward :
    ∀ (x : Nat → Nat → Nat → ℝ) (preatt0 att0 : Nat → Nat → Nat → Nat → ℝ)
      (y0 : Nat → Nat → Nat → ℝ) (batch nSeq nh d b h t : Nat) (scale : ℝ),
      scale = ((d / nh : ℕ) : ℝ) ^ (-(1 : ℝ) / 2) →
      b < batch → h < nh → t < nSeq →
      (∀ t_ ≤ t,
          attnFwdPreatt batch nSeq nh d scale x preatt0 b h t t_ =
            scale * ∑ i ∈ Finset.range (d / nh),
              attnQ d nh x b t h i * attnK d nh x b t_ h i) ∧
      (∀ t_, t < t_ →
          attnFwdPreatt batch nSeq nh d scale x preatt0 b h t t_ =
            preatt0 b h t t_) ∧
      (∀ t_ ≤ t,
          attnFwdAtt batch nSeq nh d Real.exp scale x att0 b h t t_ =
            Real.exp (attnFwdPreatt batch nSeq nh d scale x preatt0 b h t t_) /
              ∑ k ∈ Finset.range (t + 1),
                Real.exp (attnFwdPreatt batch nSeq nh d scale x preatt0 b h t k)) ∧
      (∀ i < d / nh,
          attnFwdY batch nSeq nh d Real.exp scale x y0 b t (h * (d / nh) + i) =
            ∑ t_ ∈ Finset.range (t + 1),
              attnFwdAtt batch nSeq nh d Real.exp scale x att0 b h t t_ *
                attnV d nh x b t_ h i) := by
  intro x preatt0 att0 y0 batch nSeq nh d b h t scale _hscale hb hh ht
  have hc3 : b < batch ∧ h < nh ∧ t < nSeq := ⟨hb, hh, ht⟩
  have hpre : ∀ k ≤ t,
      attnFwdPreatt batch nSeq nh d scale x preatt0 b h t k =
        attnScore d nh scale x b h t k := by
    intro k hk
    have hc4 : b < batch ∧ h < nh ∧ t < nSeq ∧ k ≤ t := ⟨hb, hh, ht, hk⟩
    simp only [attnFwdPreatt, if_pos hc4]
  refine ⟨?_, ?_, ?_, ?_⟩
  · intro t_ ht_
    rw [hpre t_ ht_, attnScore, mul_comm]
  · intro t_ ht_
    simp only [attnFwdPreatt]
    rw [if_neg (fun hc => absurd hc.2.2.2 (Nat.not_le.mpr ht_))]
  · intro t_ ht_
    have hsum : ∀ k ∈ Finset.range (t + 1),
        Real.exp (attnFwdPreatt batch nSeq nh d scale x preatt0 b h t k) =
          Real.exp (attnScore d nh scale x b h t k) := by
      intro k hk
      rw [hpre k (Nat.lt_succ_iff.mp (Finset.mem_range.mp hk))]
    rw [Finset.sum_congr rfl hsum, hpre t_ ht_]
    simp only [attnFwdAtt, if_pos hc3, if_pos ht_, attnW, attnExpSum,
      mul_one_div]
    exact exp_shift_softmax (attnScore d nh scale x b h t)
      (attnMax d nh scale x b h t) (t + 1) t_
  · intro i hi
    have hdh : 0 < d / nh := lt_of_le_of_lt (Nat.zero_le i) hi
    have hj : h * (d / nh) + i < nh * (d / nh) := by
      have h1 : (h + 1) * (d / nh) ≤ nh * (d / nh) :=
        Nat.mul_le_mul_right _ (Nat.succ_le_of_lt hh)
      calc h * (d / nh) + i < h * (d / nh) + d / nh := by omega
        _ = (h + 1) * (d / nh) := by ring
        _ ≤ nh * (d / nh) := h1
    have hdivi : (h * (d / nh) + i) / (d / nh) = h := by
      rw [mul_comm, Nat.mul_add_div hdh, Nat.div_eq_of_lt hi, Nat.add_zero]
    have hmodi : (h * (d / nh) + i) % (d / nh) = i := by
      rw [add_comm, Nat.add_mul_mod_self_right, Nat.mod_eq_of_lt hi]
    have hcy : b < batch ∧ t < nSeq ∧ h * (d / nh) + i < nh * (d / nh) :=
      ⟨hb, ht, hj⟩
    simp only [attnFwdY, if_pos hcy, hdivi, hmodi]
    refine Finset.sum_congr rfl (fun t_ ht_ => ?_)
    have ht2 : t_ ≤ t := Nat.lt_succ_iff.mp (Finset.mem_range.mp ht_)
    simp only [attnFwdAtt, if_pos hc3, if_pos ht2]

theorem C1_attention_forward_witness :
    ((1 / 1 : ℕ) : ℝ) ^ (-(1 : ℝ) / 2) = ((1 / 1 : ℕ) : ℝ) ^ (-(1 : ℝ) / 2) ∧
      (0 : Nat) < 1 ∧ (0 : Nat) < 1 ∧ (0 : Nat) < 1 ∧
      (∀ t_ ≤ 0,
          attnFwdPreatt 1 1 1 1 (((1 / 1 : ℕ) : ℝ) ^ (-(1 : ℝ) / 2)) exZeroX
              exOnePreatt 0 0 0 t_ =
            (((1 / 1 : ℕ) : ℝ) ^ (-(1 : ℝ) / 2)) *
              ∑ i ∈ Finset.range (1 / 1),
                attnQ 1 1 exZeroX 0 0 0 i * attnK 1 1 exZeroX 0 t_ 0 i) :=
  ⟨rfl, by decide, by decide, by decide,
    (C1_attention_forward exZeroX exOnePreatt exOnePreatt exZeroX 1 1 1 1 0 0 0
        (((1 / 1 : ℕ) : ℝ) ^ (-(1 : ℝ) / 2)) rfl (by decide) (by decide)
        (by decide)).1⟩

/-- C3 counterexample: the pre-softmax score tensor is NOT zero-filled above
the diagonal — `forward` discards the tail of each `preatt` row untouched, so
with a prior contents of `1` everywhere, position `t_ = 1 > t = 0` still
holds `1`, not `0`, after the call (batch 1, seq 2, one head, `d = 1`). -/
theorem C3_counterexample :
    attnFwdPreatt 1 2 1 1 (((1 / 1 : ℕ) : ℝ) ^ (-(1 : ℝ) / 2)) exZeroX
        exOnePreatt 0 0 0 1 ≠ 0 := by
  norm_num [attnFwdPreatt, exOnePreatt]

/-- C3 (amended): after attention forward, for every in-range `(b, h, t)` the
attention-weight tensor is exactly zero at every `t_` with `t < t_ < nSeq`
regardless of its prior contents, while the pre-softmax score tensor is
simply left unmodified (prior contents retained) at every `t_ > t`. -/
theorem C3_attention_future_positions :
    ∀ (x : Nat → Nat → Nat → ℝ) (preatt0 att0 : Nat → Nat → Nat → Nat → ℝ)
      (batch nSeq nh d b h t : Nat) (scale : ℝ),
      b < batch → h < nh → t < nSeq →
      (∀ t_, t < t_ → t_ < nSeq →
          attnFwdAtt batch nSeq nh d Real.exp scale x att0 b h t t_ = 0) ∧
      (∀ t_, t < t_ →
          attnFwdPreatt batch nSeq nh d scale x preatt0 b h t t_ =
            preatt0 b h t t_) := by
  intro x preatt0 att0 batch nSeq nh d b h t scale hb hh ht
  have hc3 : b < batch ∧ h < nh ∧ t < nSeq := ⟨hb, hh, ht⟩
  constructor
  · intro t_ h1 h2
    simp only [attnFwdAtt, if_pos hc3,
      if_neg (Nat.not_le.mpr h1), if_pos h2]
  · intro t_ h1
    simp only [attnFwdPreatt]
    rw [if_neg (fun hc => absurd hc.2.2.2 (Nat.not_le.mpr h1))]

theorem C3_attention_future_positions_witness :
    (0 : Nat) < 1 ∧ (0 : Nat) < 1 ∧ (0 : Nat) < 2 ∧
      attnFwdAtt 1 2 1 1 Real.exp 1 exZeroX exOnePreatt 0 0 0 1 = 0 :=
  ⟨by decide, by decide, by decide,
    (C3_attention_future_positions exZeroX exOnePreatt exOnePreatt 1 2 1 1 0 0 0 1
        (by decide) (by decide) (by decide)).1 1 (by decide) (by decide)⟩

/-- C6: loss softmax computes, per row and for `1 ≤ mask ≤ nVoc`, the stable
softmax over only the first `mask` input elements — the subtracted constant
is the row maximum of those elements, the result equals the exact softmax,
every output element at index `≥ mask` is exactly zero, and the output never
depends on input elements at index `≥ mask`. -/
theorem C6_loss_softmax :
    ∀ (x x2 y0 : Nat → Nat → Nat → ℝ) (batch nSeq nVoc mask : Nat),
      1 ≤ mask → mask ≤ nVoc →
      ((∀ b t i, i < mask → x b t i = x2 b t i) →
          lossSoftmax Real.exp x y0 batch nSeq nVoc mask =
            lossSoftmax Real.exp x2 y0 batch nSeq nVoc mask) ∧
      (∀ y, lossSoftmax Real.exp x y0 batch nSeq nVoc mask = some y →
        ∀ b t, b < batch → t < nSeq →
          (∀ i < mask,
              y b t i = Real.exp (x b t i - rowMax (x b t) (mask - 1)) /
                ∑ k ∈ Finset.range mask,
                  Real.exp (x b t k - rowMax (x b t) (mask - 1))) ∧
          (∀ k < mask, x b t k ≤ rowMax (x b t) (mask - 1)) ∧
          (∃ k < mask, rowMax (x b t) (mask - 1) = x b t k) ∧
          (∀ i < mask,
              y b t i = Real.exp (x b t i) /
                ∑ k ∈ Finset.range mask, Real.exp (x b t k)) ∧
          (∀ i, mask ≤ i → i < nVoc → y b t i = 0)) := by
  intro x x2 y0 batch nSeq nVoc mask hm1 hm2
  have hcond : ¬(mask = 0 ∨ nVoc < mask) := by omega
  constructor
  · intro hagree
    by_cases h0 : batch = 0 ∨ nSeq = 0
    · simp only [lossSoftmax, if_pos h0]
    · simp only [lossSoftmax, if_neg h0, if_neg hcond, Option.some_inj]
      funext b t i
      by_cases hbt : b < batch ∧ t < nSeq ∧ i < nVoc
      · simp only [if_pos hbt]
        by_cases hi : i < mask
        · have hmaxeq : rowMax (x b t) (mask - 1) = rowMax (x2 b t) (mask - 1) :=
            rowMax_congr _ _ _ (fun j hj => hagree b t j (by omega))
          have hrow : lossSoftmaxRow Real.exp (x b t) mask i =
              lossSoftmaxRow Real.exp (x2 b t) mask i := by
            simp only [lossSoftmaxRow]
            rw [hmaxeq, hagree b t i hi]
            congr 1
            refine Finset.sum_congr rfl (fun k hk => ?_)
            rw [hagree b t k (Finset.mem_range.mp hk)]
          simp only [if_pos hi, hrow]
        · simp only [if_neg hi]
      · simp only [if_neg hbt]
  · intro y hy b t hb ht
    have h0 : ¬(batch = 0 ∨ nSeq = 0) := by omega
    rw [lossSoftmax, if_neg h0, if_neg hcond, Option.some_inj] at hy
    have hval : ∀ i, i < nVoc →
        y b t i = if i < mask then lossSoftmaxRow Real.exp (x b t) mask i else 0 := by
      intro i hi
      rw [← hy]
      have hci : b < batch ∧ t < nSeq ∧ i < nVoc := ⟨hb, ht, hi⟩
      simp only [if_pos hci]
    refine ⟨?_, ?_, ?_, ?_, ?_⟩
    · intro i hi
      rw [hval i (lt_of_lt_of_le hi hm2), if_pos hi]
      rfl
    · intro k hk
      exact le_rowMax (x b t) (mask - 1) k (by omega)
    · obtain ⟨k, hk, hkv⟩ := rowMax_attained (x b t) (mask - 1)
      exact ⟨k, by omega, hkv⟩
    · intro i hi
      rw [hval i (lt_of_lt_of_le hi hm2), if_pos hi]
      exact exp_shift_softmax (x b t) (rowMax (x b t) (mask - 1)) mask i
    · intro i h1 h2
      rw [hval i h2, if_neg (Nat.not_lt.mpr h1)]

theorem C6_loss_softmax_witness :
    (1 : Nat) ≤ 1 ∧ (1 : Nat) ≤ 1 ∧
      ((∀ b t i, i < 1 → exZeroX b t i = exZeroX b t i) →
        lossSoftmax Real.exp exZeroX exZeroX 1 1 1 1 =
          lossSoftmax Real.exp exZeroX exZeroX 1 1 1 1) :=
  ⟨by decide, by decide,
    (C6_loss_softmax exZeroX exZeroX exZeroX 1 1 1 1 (by decide) (by decide)).1⟩

/-- C9: loss softmax has the unstated precondition `1 ≤ mask ≤ nVoc`: with a
non-empty batch/sequence, `mask = 0` aborts (empty-slice max unwrapped) and
`mask > nVoc` aborts (row split out of range), while under the precondition
the call never aborts, for every input. -/
theorem C9_loss_softmax_mask_precondition :
    ∀ (x y0 : Nat → Nat → Nat → ℝ) (batch nSeq nVoc mask : Nat),
      (0 < batch → 0 < nSeq → mask = 0 →
          lossSoftmax Real.exp x y0 batch nSeq nVoc mask = none) ∧
      (0 < batch → 0 < nSeq → nVoc < mask →
          lossSoftmax Real.exp x y0 batch nSeq nVoc mask = none) ∧
      (1 ≤ mask → mask ≤ nVoc →
          (lossSoftmax Real.exp x y0 batch nSeq nVoc mask).isSome = true) := by
  intro x y0 batch nSeq nVoc mask
  refine ⟨?_, ?_, ?_⟩
  · intro h1 h2 h3
    rw [lossSoftmax, if_neg (by omega), if_pos (by omega)]
  · intro h1 h2 h3
    rw [lossSoftmax, if_neg (by omega), if_pos (by omega)]
  · intro h1 h2
    by_cases h0 : batch = 0 ∨ nSeq = 0
    · rw [lossSoftmax, if_pos h0]
      rfl
    · rw [lossSoftmax, if_neg h0, if_neg (by omega)]
      rfl

theorem C9_loss_softmax_mask_precondition_witness :
    (0 : Nat) < 1 ∧ (0 : Nat) < 1 ∧ (0 : Nat) = 0 ∧
      lossSoftmax Real.exp exZeroX exZeroX 1 1 1 0 = none :=
  ⟨by decide, by decide, by decide,
    (C9_loss_softmax_mask_precondition exZeroX exZeroX 1 1 1 0).1 (by decide)
      (by decide) (by decide)⟩

end LlmRs
